import Mathlib

/-!
Shallow embedding of the earbug listening-event store and its operations,
translated from the Go sources (server/server.go, subcommands/serve/*.go and
the unnamed parts, which repeat the same merge, report and auth logic across
the v3/v4/v5 generations of the program).

Modelling conventions:
* Go maps are modelled as association lists; insertion appends a binding and
  lookup scans from the front.  The Go iteration order of a map is
  unspecified; the model iterates in list order.
* A playback key is the string produced by item.PlayedAt.Format(RFC3339Nano)
  and is parsed back with time.Parse(RFC3339).  Formatting an instant and
  parsing it back is the identity on instants and distinct instants format to
  distinct strings, so the key is modelled by the instant itself, an integer
  count of nanoseconds (Go time.Duration and int64 arithmetic on the
  minutes-scale values involved never overflows).
* Nil pointers: a missing entry of a Go map of message pointers is nil, and a
  field access on it panics.  Functions that can hit such a dereference
  return an Option, with none standing for the panic.
-/

namespace Earbug

/-- earbugv4.Artist: id, uri, name. -/
structure Artist where
  id : String
  uri : String
  name : String
deriving DecidableEq, Repr

/-- earbugv4.Track: id, uri, type, name, duration, artists. -/
structure Track where
  id : String
  uri : String
  type : String
  name : String
  /-- durationpb value in nanoseconds (item.Track.TimeDuration()). -/
  duration : Int
  artists : List Artist
deriving DecidableEq, Repr

/-- earbugv4.Playback: track_id, track_uri, context_type, context_uri. -/
structure Playback where
  trackId : String
  trackUri : String
  contextType : String
  contextUri : String
deriving DecidableEq, Repr

/-- earbugv4.Auth: client_id, client_secret, token (opaque bytes). -/
structure Auth where
  clientId : String
  clientSecret : String
  token : List Nat
deriving DecidableEq, Repr

/-- The Auth record with every field empty (Go zero value of the message). -/
def emptyAuth : Auth := ⟨"", "", []⟩

/-- earbugv4.Store: playbacks keyed by timestamp, tracks keyed by track id,
and the auth record.  Auth is a message pointer in Go and may be nil, hence
the Option.  The maps are modelled as association lists (see module note). -/
structure Store where
  playbacks : List (Int × Playback)
  tracks : List (String × Track)
  auth : Option Auth
deriving DecidableEq, Repr

/-- Go map read m[k] on an association list. -/
def lookupKey {κ α : Type} [DecidableEq κ] (k : κ) : List (κ × α) → Option α
  | [] => none
  | (k', v) :: rest => if k = k' then some v else lookupKey k rest

theorem lookupKey_append_some {κ α : Type} [DecidableEq κ] {k : κ} {l : List (κ × α)}
    {v : α} (l' : List (κ × α)) (h : lookupKey k l = some v) :
    lookupKey k (l ++ l') = some v := by
  induction l with
  | nil => simp [lookupKey] at h
  | cons hd tl ih =>
    obtain ⟨k', v'⟩ := hd
    by_cases hk : k = k' <;> simp_all [lookupKey]

theorem lookupKey_append_none {κ α : Type} [DecidableEq κ] {k : κ} {l : List (κ × α)}
    (l' : List (κ × α)) (h : lookupKey k l = none) :
    lookupKey k (l ++ l') = lookupKey k l' := by
  induction l with
  | nil => simp
  | cons hd tl ih =>
    obtain ⟨k', v'⟩ := hd
    by_cases hk : k = k' <;> simp_all [lookupKey]

theorem lookupKey_self {κ α : Type} [DecidableEq κ] (k : κ) (v : α) :
    lookupKey k [(k, v)] = some v := by
  simp [lookupKey]

theorem mem_of_lookupKey {κ α : Type} [DecidableEq κ] {k : κ} {l : List (κ × α)}
    {v : α} (h : lookupKey k l = some v) : (k, v) ∈ l := by
  induction l with
  | nil => simp [lookupKey] at h
  | cons hd tl ih =>
    obtain ⟨k', v'⟩ := hd
    by_cases hk : k = k'
    · subst hk
      simp [lookupKey] at h
      simp [h]
    · simp [lookupKey, hk] at h
      exact List.mem_cons_of_mem _ (ih h)

/-! Raw events as returned by the playback source
(spotify.RecentlyPlayedItem, the fields the merge reads). -/

/-- Artist data of a raw recently-played item. -/
structure RawArtist where
  id : String
  uri : String
  name : String
deriving DecidableEq, Repr

/-- Track data of a raw recently-played item. -/
structure RawTrack where
  id : String
  uri : String
  type : String
  name : String
  /-- item.Track.TimeDuration() in nanoseconds. -/
  durationNanos : Int
  artists : List RawArtist
deriving DecidableEq, Repr

/-- One raw recently-played item. -/
structure RawEvent where
  /-- item.PlayedAt, already identified with its RFC3339Nano key (module note). -/
  playedAt : Int
  track : RawTrack
  contextType : String
  contextUri : String
deriving DecidableEq, Repr

/-- Track metadata inserted by the merge loop for a previously unseen id. -/
def trackOfItem (t : RawTrack) : Track :=
  { id := t.id
    uri := t.uri
    type := t.type
    name := t.name
    duration := t.durationNanos
    artists := t.artists.map (fun a => { id := a.id, uri := a.uri, name := a.name }) }

/-- Playback record inserted by the merge loop for a previously unseen key. -/
def playbackOfItem (e : RawEvent) : Playback :=
  { trackId := e.track.id
    trackUri := e.track.uri
    contextType := e.contextType
    contextUri := e.contextUri }

/-- One iteration of the merge loop of UpdateRecentlyPlayed / userData.update /
App.hUpdate: insert the playback if its timestamp key is absent, then insert
the track metadata if its id is absent. -/
def ingestOne (s : Store) (e : RawEvent) : Store :=
  let s1 :=
    match lookupKey e.playedAt s.playbacks with
    | some _ => s
    | none => { s with playbacks := s.playbacks ++ [(e.playedAt, playbackOfItem e)] }
  match lookupKey e.track.id s1.tracks with
  | some _ => s1
  | none => { s1 with tracks := s1.tracks ++ [(e.track.id, trackOfItem e.track)] }

/-- The whole merge loop over one fetched batch of raw events. -/
def ingest (s : Store) (es : List RawEvent) : Store := es.foldl ingestOne s

/-- Both keys of a raw event are present in the store. -/
def absorbed (s : Store) (e : RawEvent) : Prop :=
  (lookupKey e.playedAt s.playbacks).isSome ∧ (lookupKey e.track.id s.tracks).isSome

theorem ingestOne_playbacks_preserved {s : Store} {k : Int} {p : Playback}
    (e : RawEvent) (h : lookupKey k s.playbacks = some p) :
    lookupKey k (ingestOne s e).playbacks = some p := by
  unfold ingestOne
  cases hpb : lookupKey e.playedAt s.playbacks <;>
    cases htr : lookupKey e.track.id
      (match lookupKey e.playedAt s.playbacks with
        | some _ => s
        | none => { s with playbacks := s.playbacks ++ [(e.playedAt, playbackOfItem e)] }).tracks <;>
    simp_all [lookupKey_append_some]

theorem ingestOne_tracks_preserved {s : Store} {k : String} {t : Track}
    (e : RawEvent) (h : lookupKey k s.tracks = some t) :
    lookupKey k (ingestOne s e).tracks = some t := by
  unfold ingestOne
  cases hpb : lookupKey e.playedAt s.playbacks <;>
    cases htr : lookupKey e.track.id
      (match lookupKey e.playedAt s.playbacks with
        | some _ => s
        | none => { s with playbacks := s.playbacks ++ [(e.playedAt, playbackOfItem e)] }).tracks <;>
    simp_all [lookupKey_append_some]

theorem ingest_playbacks_preserved {k : Int} {p : Playback}
    (es : List RawEvent) {s : Store} (h : lookupKey k s.playbacks = some p) :
    lookupKey k (ingest s es).playbacks = some p := by
  induction es generalizing s with
  | nil => exact h
  | cons e rest ih => exact ih (ingestOne_playbacks_preserved e h)

theorem ingest_tracks_preserved {k : String} {t : Track}
    (es : List RawEvent) {s : Store} (h : lookupKey k s.tracks = some t) :
    lookupKey k (ingest s es).tracks = some t := by
  induction es generalizing s with
  | nil => exact h
  | cons e rest ih => exact ih (ingestOne_tracks_preserved e h)

theorem absorbed_ingestOne (s : Store) (e : RawEvent) : absorbed (ingestOne s e) e := by
  constructor
  · cases hpb : lookupKey e.playedAt s.playbacks with
    | some p =>
      rw [ingestOne_playbacks_preserved e hpb]
      rfl
    | none =>
      unfold ingestOne
      rw [hpb]
      have hkey : lookupKey e.playedAt (s.playbacks ++ [(e.playedAt, playbackOfItem e)]) =
          some (playbackOfItem e) := by
        rw [lookupKey_append_none _ hpb, lookupKey_self]
      cases htr : lookupKey e.track.id
          ({ s with playbacks := s.playbacks ++ [(e.playedAt, playbackOfItem e)] } : Store).tracks <;>
        simp_all
  · unfold ingestOne
    cases hpb : lookupKey e.playedAt s.playbacks <;>
      [skip; skip] <;>
      · cases htr : lookupKey e.track.id s.tracks with
        | some t => simp_all
        | none =>
          simp only [htr]
          have := lookupKey_append_none (k := e.track.id) (l := s.tracks)
            [(e.track.id, trackOfItem e.track)] htr
          simp_all [lookupKey_self]

theorem absorbed_mono {s : Store} {e : RawEvent} (e' : RawEvent)
    (h : absorbed s e) : absorbed (ingestOne s e') e := by
  obtain ⟨h1, h2⟩ := h
  rw [Option.isSome_iff_exists] at h1 h2
  obtain ⟨p, hp⟩ := h1
  obtain ⟨t, ht⟩ := h2
  exact ⟨by rw [ingestOne_playbacks_preserved e' hp]; rfl,
    by rw [ingestOne_tracks_preserved e' ht]; rfl⟩

theorem absorbed_ingest_mono {s : Store} {e : RawEvent} (es : List RawEvent)
    (h : absorbed s e) : absorbed (ingest s es) e := by
  induction es generalizing s with
  | nil => exact h
  | cons e' rest ih => exact ih (absorbed_mono e' h)

theorem ingest_absorbs (es : List RawEvent) (s : Store) :
    ∀ e ∈ es, absorbed (ingest s es) e := by
  induction es generalizing s with
  | nil => intro e he; cases he
  | cons e' rest ih =>
    intro e he
    rcases List.mem_cons.mp he with rfl | hmem
    · exact absorbed_ingest_mono rest (absorbed_ingestOne s e)
    · exact ih (ingestOne s e') e hmem

theorem ingestOne_of_absorbed {s : Store} {e : RawEvent} (h : absorbed s e) :
    ingestOne s e = s := by
  obtain ⟨h1, h2⟩ := h
  rw [Option.isSome_iff_exists] at h1 h2
  obtain ⟨p, hp⟩ := h1
  obtain ⟨t, ht⟩ := h2
  unfold ingestOne
  rw [hp]
  simp [ht]

theorem ingest_of_absorbed {s : Store} {es : List RawEvent}
    (h : ∀ e ∈ es, absorbed s e) : ingest s es = s := by
  induction es with
  | nil => rfl
  | cons e rest ih =>
    have hs : ingestOne s e = s := ingestOne_of_absorbed (h e (by simp))
    show ingest (ingestOne s e) rest = s
    rw [hs]
    exact ih (fun e' he' => h e' (List.mem_cons_of_mem _ he'))

/-- C1: the merge (ingest) is idempotent and first-write-wins: ingesting a
batch twice gives the very store of ingesting it once; a raw event whose
timestamp key is already a playback key leaves that playback binding
unchanged, and a track id already present leaves the track metadata
unchanged. -/
theorem ingest_idempotent_first_write_wins (s : Store) (es : List RawEvent) :
    ingest (ingest s es) es = ingest s es
    ∧ (∀ (k : Int) (p : Playback), lookupKey k s.playbacks = some p →
        lookupKey k (ingest s es).playbacks = some p)
    ∧ (∀ (k : String) (t : Track), lookupKey k s.tracks = some t →
        lookupKey k (ingest s es).tracks = some t) := by
  refine ⟨ingest_of_absorbed (ingest_absorbs es s), ?_, ?_⟩
  · intro k p h
    exact ingest_playbacks_preserved es h
  · intro k t h
    exact ingest_tracks_preserved es h

/-- The playback stored under key 1000 in storeW. -/
def playbackW : Playback := ⟨"t1", "spotify:track:t1", "album", "ctx"⟩

/-- The track stored under id t1 in storeW. -/
def trackW : Track := ⟨"t1", "spotify:track:t1", "track", "Song One", 200000000000, []⟩

/-- A concrete store with one playback and one track, used by witnesses. -/
def storeW : Store := ⟨[(1000, playbackW)], [("t1", trackW)], some emptyAuth⟩

/-- A concrete raw event whose key and track id collide with storeW's entries
but whose payload differs. -/
def eventW : RawEvent := ⟨1000, ⟨"t1", "other", "track", "Other", 5, []⟩, "playlist", "other-ctx"⟩

theorem ingest_idempotent_first_write_wins_witness :
    ingest (ingest storeW [eventW]) [eventW] = ingest storeW [eventW]
    ∧ lookupKey (1000 : Int) (ingest storeW [eventW]).playbacks = some playbackW
    ∧ lookupKey "t1" (ingest storeW [eventW]).tracks = some trackW := by
  obtain ⟨h1, h2, h3⟩ := ingest_idempotent_first_write_wins storeW [eventW]
  exact ⟨h1, h2 1000 playbackW (by decide), h3 "t1" trackW (by decide)⟩

/-! Report derivation: getPlaybacks of subcommands/serve/web.go and its
identical copy App.getPlaybacks. -/

/-- getPlaybacksOptions: From/To bounds (Go zero time, meaning unset, is
none) and case-insensitive artist/track substring filters. -/
structure GetPlaybacksOptions where
  fromTime : Option Int
  toTime : Option Int
  artist : String
  track : String
deriving DecidableEq, Repr

/-- The Playback view struct of web.go: resolved start time, derived
playback time and the resolved track. -/
structure PlaybackView where
  startTime : Int
  playbackTime : Int
  track : Track
deriving DecidableEq, Repr

/-- Needle occurs at the head of hay (helper for substring search). -/
def headMatches : List Char → List Char → Bool
  | [], _ => true
  | _ :: _, [] => false
  | c :: cs, h :: hs => c == h && headMatches cs hs

/-- strings.Contains: needle occurs somewhere in hay. -/
def listHasSub (hay needle : List Char) : Bool :=
  headMatches needle hay ||
    match hay with
    | [] => false
    | _ :: hs => listHasSub hs needle

/-- strings.Contains on strings; Go's Unicode ToLower at the call sites is
modelled by String.toLower. -/
def containsSub (hay needle : String) : Bool := listHasSub hay.data needle.data

/-- The filter loop of getPlaybacks over the playbacks map.  Records outside
the From/To window are skipped before the track is resolved.  A record inside
the window whose trackId has no entry yields a nil *Track whose Name and
Artists fields are dereferenced unconditionally, a panic: modelled as none. -/
def filterPlays (s : Store) (o : GetPlaybacksOptions) :
    List (Int × Playback) → Option (List (Int × Track))
  | [] => some []
  | (ts, play) :: rest =>
    let startTime := ts
    if match o.fromTime with | some f => decide (startTime < f) | none => false then
      filterPlays s o rest
    else if match o.toTime with | some t => decide (t < startTime) | none => false then
      filterPlays s o rest
    else
      match lookupKey play.trackId s.tracks with
      | none => none
      | some track =>
        if o.track ≠ "" && !containsSub track.name.toLower o.track.toLower then
          filterPlays s o rest
        else
          let artistMatch := o.artist == "" ||
            track.artists.any (fun a => containsSub a.name.toLower o.artist.toLower)
          if !artistMatch then
            filterPlays s o rest
          else
            (filterPlays s o rest).map ((ts, track) :: ·)

/-- Insert into a list sorted most-recent-first (sort.Slice with the
StartTime.After comparator; the Go sort is unstable, modelled by insertion
sort, which realizes one ordering consistent with the comparator). -/
def insertDesc (x : Int × Track) : List (Int × Track) → List (Int × Track)
  | [] => [x]
  | y :: ys => if y.1 < x.1 then x :: y :: ys else y :: insertDesc x ys

/-- Sort most-recent-first by start time. -/
def sortDesc : List (Int × Track) → List (Int × Track)
  | [] => []
  | x :: xs => insertDesc x (sortDesc xs)

/-- Body of the PlaybackTime loop for one record: the nominal duration,
clipped to the gap to the previous (more recent) record when one exists and
the gap is smaller. -/
def clipTime (prev : Option Int) (ts : Int) (d : Int) : Int :=
  match prev with
  | none => d
  | some p => if p - ts < d then p - ts else d

/-- The PlaybackTime loop: record 0 keeps the track's nominal duration;
record i>0 is clipped by clipTime.  prev carries the previous record's
start time. -/
def clipDurations (prev : Option Int) : List (Int × Track) → List PlaybackView
  | [] => []
  | (ts, tr) :: rest =>
    ⟨ts, clipTime prev ts tr.duration, tr⟩ :: clipDurations (some ts) rest

/-- getPlaybacks: filter, sort most-recent-first, derive PlaybackTime.
Returns none when the filter loop dereferences a dangling track. -/
def getPlaybacks (s : Store) (o : GetPlaybacksOptions) : Option (List PlaybackView) :=
  (filterPlays s o s.playbacks).map (fun plays => clipDurations none (sortDesc plays))

/-- Options with no time bounds and empty filters ("/playbacks" with no
query parameters for the serve version). -/
def defaultOptions : GetPlaybacksOptions := ⟨none, none, "", ""⟩

theorem clipDurations_getElem? (l : List (Int × Track)) (prev : Option Int)
    (i : Nat) :
    ((clipDurations prev l)[i]?).map (·.playbackTime) =
      (l[i]?).map (fun cur =>
        match (match i with | 0 => prev | j + 1 => (l[j]?).map (·.1)) with
        | some p => if p - cur.1 < cur.2.duration then p - cur.1 else cur.2.duration
        | none => cur.2.duration) := by
  induction l generalizing prev i with
  | nil => simp [clipDurations]
  | cons x xs ih =>
    cases i with
    | zero =>
      simp only [clipDurations, List.getElem?_cons_zero, Option.map_some]
      cases prev <;> rfl
    | succ j =>

      simp only [clipDurations, List.getElem?_cons_succ]
      rw [ih (some x.1) j]
      cases j with
      | zero => simp
      | succ k => simp

theorem if_lt_eq_min (d g : Int) : (if g < d then g else d) = min d g := by
  simp only [min_def]
  split <;> split <;> omega

/-- The 200-second track of the duration-clipping example. -/
def track200 : Track := ⟨"t", "spotify:track:t", "track", "Long Song", 200000000000, []⟩

/-- Playback record referencing track200. -/
def play200 : Playback := ⟨"t", "spotify:track:t", "album", "ctx"⟩

/-- Store with three plays of the 200s track at t=0s, t=150s, t=450s. -/
def store200 : Store :=
  ⟨[(0, play200), (150000000000, play200), (450000000000, play200)],
    [("t", track200)], some emptyAuth⟩

/-- C2: in the most-recent-first order, record 0 keeps the track's nominal
duration and record i>0 gets min(nominal duration, startTime[i-1] -
startTime[i]); three plays of a 200s track at t=0s, 150s, 450s yield
PlaybackTime 200s, 200s, 150s (for t=450, t=150, t=0). -/
theorem playbackTime_clip_spec :
    (∀ (l : List (Int × Track)) (i : Nat),
      ((clipDurations none l)[i]?).map (·.playbackTime) =
        (l[i]?).map (fun cur =>
          match i with
          | 0 => cur.2.duration
          | j + 1 =>
            match l[j]? with
            | some prevRec => min cur.2.duration (prevRec.1 - cur.1)
            | none => cur.2.duration))
    ∧ (getPlaybacks store200 defaultOptions).map (List.map (·.playbackTime)) =
        some [200000000000, 200000000000, 150000000000] := by
  constructor
  · intro l i
    rw [clipDurations_getElem? l none i]
    cases i with
    | zero => rfl
    | succ j =>
      cases hj : l[j]? with
      | none => simp [hj]
      | some prevRec => simp [hj, if_lt_eq_min]
  · decide

/-- Store owning one playback whose trackId resolves to no track entry. -/
def danglingStore : Store :=
  ⟨[(5, ⟨"missing", "spotify:track:missing", "album", "ctx"⟩)], [], some emptyAuth⟩

/-- C9: a playback whose trackId is absent from tracks makes getPlaybacks
dereference a nil *Track (track.Name / track.Artists), a panic; the
derivation does not complete.  The model returns none for the panic. -/
theorem getPlaybacks_dangling_panics :
    getPlaybacks danglingStore defaultOptions = none := by decide

theorem mem_insertDesc {x z : Int × Track} {l : List (Int × Track)}
    (h : z ∈ insertDesc x l) : z = x ∨ z ∈ l := by
  induction l with
  | nil => simpa [insertDesc] using h
  | cons y ys ih =>
    by_cases hc : y.1 < x.1
    · simp only [insertDesc, if_pos hc] at h
      rcases List.mem_cons.mp h with rfl | h2
      · exact Or.inl rfl
      · exact Or.inr h2
    · simp only [insertDesc, if_neg hc] at h
      rcases List.mem_cons.mp h with rfl | h2
      · exact Or.inr (List.mem_cons_self _ _)
      · rcases ih h2 with rfl | h3
        · exact Or.inl rfl
        · exact Or.inr (List.mem_cons_of_mem _ h3)

theorem mem_sortDesc {z : Int × Track} {l : List (Int × Track)}
    (h : z ∈ sortDesc l) : z ∈ l := by
  induction l with
  | nil => simp [sortDesc] at h
  | cons x xs ih =>
    rcases mem_insertDesc (show z ∈ insertDesc x (sortDesc xs) from h) with rfl | h2
    · exact List.mem_cons_self _ _
    · exact List.mem_cons_of_mem _ (ih h2)

/-- Most-recent-first order: every later record starts no later. -/
def DescByStart (l : List (Int × Track)) : Prop :=
  l.Pairwise (fun a b => b.1 ≤ a.1)

theorem pairwise_insertDesc {x : Int × Track} {l : List (Int × Track)}
    (h : DescByStart l) : DescByStart (insertDesc x l) := by
  induction l with
  | nil => simp [DescByStart, insertDesc]
  | cons y ys ih =>
    simp only [DescByStart, List.pairwise_cons] at h
    obtain ⟨hy, hys⟩ := h
    by_cases hc : y.1 < x.1
    · simp only [DescByStart, insertDesc, if_pos hc, List.pairwise_cons]
      refine ⟨?_, hy, hys⟩
      intro z hz
      rcases List.mem_cons.mp hz with rfl | hz2
      · omega
      · have := hy z hz2
        omega
    · simp only [DescByStart, insertDesc, if_neg hc, List.pairwise_cons]
      refine ⟨?_, ih hys⟩
      intro z hz
      rcases mem_insertDesc hz with rfl | hz2
      · omega
      · exact hy z hz2

theorem pairwise_sortDesc (l : List (Int × Track)) : DescByStart (sortDesc l) := by
  induction l with
  | nil => simp [DescByStart, sortDesc]
  | cons x xs ih => exact pairwise_insertDesc ih

/-- Every track placed into the filtered list was resolved from the store's
tracks map. -/
theorem filterPlays_track_mem {s : Store} {o : GetPlaybacksOptions}
    {pl : List (Int × Playback)} {out : List (Int × Track)}
    (h : filterPlays s o pl = some out) :
    ∀ x ∈ out, ∃ k, lookupKey k s.tracks = some x.2 := by
  induction pl generalizing out with
  | nil =>
    simp only [filterPlays, Option.some.injEq] at h
    subst h
    intro x hx
    cases hx
  | cons hd rest ih =>
    obtain ⟨ts, play⟩ := hd
    simp only [filterPlays] at h
    split at h
    · exact ih h
    · split at h
      · exact ih h
      · split at h
        · cases h
        · rename_i track htrack
          split at h
          · exact ih h
          · split at h
            · exact ih h
            · obtain ⟨outRest, hrest, hcons⟩ := Option.map_eq_some'.mp h
              subst hcons
              intro x hx
              rcases List.mem_cons.mp hx with rfl | hx2
              · exact ⟨play.trackId, htrack⟩
              · exact ih hrest x hx2

theorem clipTime_bounds {prev : Option Int} {ts : Int} {d : Int}
    (hd : 0 ≤ d) (hts : ∀ p, prev = some p → ts ≤ p) :
    0 ≤ clipTime prev ts d ∧ clipTime prev ts d ≤ d := by
  cases prev with
  | none => exact ⟨hd, le_refl _⟩
  | some p =>
    have hp := hts p rfl
    rw [show clipTime (some p) ts d = if p - ts < d then p - ts else d from rfl]
    constructor <;> split <;> omega

theorem clipDurations_bounds {l : List (Int × Track)} {prev : Option Int}
    (hsort : DescByStart l)
    (hdur : ∀ x ∈ l, 0 ≤ x.2.duration)
    (hprev : ∀ p, prev = some p → ∀ x ∈ l, x.1 ≤ p) :
    ∀ v ∈ clipDurations prev l, 0 ≤ v.playbackTime ∧ v.playbackTime ≤ v.track.duration := by
  induction l generalizing prev with
  | nil => intro v hv; cases hv
  | cons hd rest ih =>
    obtain ⟨ts, tr⟩ := hd
    simp only [DescByStart, List.pairwise_cons] at hsort
    obtain ⟨hhd, hrest⟩ := hsort
    intro v hv
    simp only [clipDurations] at hv
    rcases List.mem_cons.mp hv with rfl | hv2
    · have hd0 : (0 : Int) ≤ tr.duration := hdur (ts, tr) (List.mem_cons_self _ _)
      exact clipTime_bounds hd0 (fun p hp => by
        cases hp
        exact hprev p rfl (ts, tr) (List.mem_cons_self _ _))
    · refine ih (by exact hrest) (fun x hx => hdur x (List.mem_cons_of_mem _ hx)) ?_ v hv2
      intro p hp x hx
      cases hp
      exact hhd x hx

/-- C10: with nonnegative nominal durations, every record of the derived
report has 0 ≤ PlaybackTime ≤ its track's nominal duration; the gap clipping
cannot go negative because the records were sorted most-recent-first. -/
theorem playbackTime_bounds (s : Store) (o : GetPlaybacksOptions)
    (plays : List PlaybackView)
    (hdur : ∀ kt ∈ s.tracks, 0 ≤ kt.2.duration)
    (h : getPlaybacks s o = some plays) :
    ∀ v ∈ plays, 0 ≤ v.playbackTime ∧ v.playbackTime ≤ v.track.duration := by
  unfold getPlaybacks at h
  obtain ⟨out, hf, hplays⟩ := Option.map_eq_some'.mp h
  subst hplays
  refine clipDurations_bounds (pairwise_sortDesc out) ?_ (by intro p hp; cases hp)
  intro x hx
  obtain ⟨k, hk⟩ := filterPlays_track_mem hf x (mem_sortDesc hx)
  have : (k, x.2) ∈ s.tracks := mem_of_lookupKey hk
  exact hdur (k, x.2) this

/-- The single view produced by getPlaybacks on storeW. -/
def viewW : PlaybackView := ⟨1000, 200000000000, trackW⟩

theorem playbackTime_bounds_witness :
    0 ≤ viewW.playbackTime ∧ viewW.playbackTime ≤ viewW.track.duration :=
  playbackTime_bounds storeW defaultOptions [viewW]
    (by decide) (by decide) viewW (List.mem_singleton.mpr rfl)

/-! Codec and durability.  Modelled from the spec: the binary codec
(proto.Marshal / proto.Unmarshal of the Store message) and the streaming
compressor (klauspost zstd) are external dependencies with no source under
src/; per the spec they are a deterministic compact binary serialization of
the logical Store followed by a general-purpose invertible compressor.  The
model serializes into a byte list with a varint length-prefixed format and
compresses with run-length encoding. -/

/-- Little-endian base-128 varint encoding of a natural number. -/
def encodeNat (n : Nat) : List Nat :=
  if h : n < 128 then [n]
  else (128 + n % 128) :: encodeNat (n / 128)
decreasing_by exact Nat.div_lt_self (by omega) (by omega)

/-- Inverse of encodeNat; returns the value and the unread remainder. -/
def decodeNat : List Nat → Option (Nat × List Nat)
  | [] => none
  | b :: rest =>
    if b < 128 then some (b, rest)
    else
      match decodeNat rest with
      | some (n, rest') => some (n * 128 + (b - 128), rest')
      | none => none

theorem decodeNat_encodeNat (n : Nat) (r : List Nat) :
    decodeNat (encodeNat n ++ r) = some (n, r) := by
  induction n using Nat.strong_induction_on with
  | _ n ih =>
    by_cases h : n < 128
    · rw [encodeNat, dif_pos h]
      simp [decodeNat, h]
    · rw [encodeNat, dif_neg h]
      have hdiv : n / 128 < n := Nat.div_lt_self (by omega) (by omega)
      have hb : ¬ (128 + n % 128 < 128) := by omega
      have ihh := ih (n / 128) hdiv
      simp only [List.cons_append, decodeNat, if_neg hb, List.append_eq, ihh,
        Option.some.injEq, Prod.mk.injEq]
      exact ⟨by omega, trivial⟩

/-- Sign byte followed by the varint magnitude. -/
def encodeInt (i : Int) : List Nat :=
  (if i < 0 then 1 else 0) :: encodeNat i.natAbs

/-- Inverse of encodeInt. -/
def decodeInt : List Nat → Option (Int × List Nat)
  | [] => none
  | s :: rest =>
    match decodeNat rest with
    | some (n, rest') => some (if s = 1 then -(n : Int) else (n : Int), rest')
    | none => none

theorem decodeInt_encodeInt (i : Int) (r : List Nat) :
    decodeInt (encodeInt i ++ r) = some (i, r) := by
  by_cases hi : i < 0
  · have habs : ((i.natAbs : Int)) = -i := by omega
    simp only [encodeInt, if_pos hi, List.cons_append, decodeInt, decodeNat_encodeNat,
      habs, if_pos rfl, neg_neg, if_true]
  · have habs : ((i.natAbs : Int)) = i := by omega
    simp only [encodeInt, if_neg hi, List.cons_append, decodeInt, decodeNat_encodeNat,
      habs]
    rw [if_neg (by omega : ¬ (0 : Nat) = 1)]

/-- Length-prefixed encoding of a list, given an element encoder. -/
def encodeList {α : Type} (enc : α → List Nat) (l : List α) : List Nat :=
  encodeNat l.length ++ (l.map enc).flatten

/-- Decode exactly n elements with the given element decoder. -/
def decodeCount {α : Type} (dec : List Nat → Option (α × List Nat)) :
    Nat → List Nat → Option (List α × List Nat)
  | 0, bs => some ([], bs)
  | n + 1, bs =>
    match dec bs with
    | some (a, bs1) =>
      match decodeCount dec n bs1 with
      | some (as, bs2) => some (a :: as, bs2)
      | none => none
    | none => none

/-- Inverse of encodeList. -/
def decodeList {α : Type} (dec : List Nat → Option (α × List Nat)) (bs : List Nat) :
    Option (List α × List Nat) :=
  match decodeNat bs with
  | some (n, bs1) => decodeCount dec n bs1
  | none => none

theorem decodeCount_join {α : Type} {dec : List Nat → Option (α × List Nat)}
    {enc : α → List Nat} (hre : ∀ a r, dec (enc a ++ r) = some (a, r))
    (l : List α) (r : List Nat) :
    decodeCount dec l.length ((l.map enc).flatten ++ r) = some (l, r) := by
  induction l generalizing r with
  | nil => simp [decodeCount]
  | cons a as ih =>
    simp only [List.map_cons, List.flatten_cons, List.length_cons, List.append_assoc,
      decodeCount, hre, ih]

theorem decodeList_encodeList {α : Type} {dec : List Nat → Option (α × List Nat)}
    {enc : α → List Nat} (hre : ∀ a r, dec (enc a ++ r) = some (a, r))
    (l : List α) (r : List Nat) :
    decodeList dec (encodeList enc l ++ r) = some (l, r) := by
  simp only [encodeList, List.append_assoc, decodeList, decodeNat_encodeNat]
  exact decodeCount_join hre l r

/-- Character as its code point varint. -/
def encodeChar (c : Char) : List Nat := encodeNat c.toNat

/-- Inverse of encodeChar. -/
def decodeChar (bs : List Nat) : Option (Char × List Nat) :=
  match decodeNat bs with
  | some (n, r) => some (Char.ofNat n, r)
  | none => none

theorem decodeChar_encodeChar (c : Char) (r : List Nat) :
    decodeChar (encodeChar c ++ r) = some (c, r) := by
  simp [encodeChar, decodeChar, decodeNat_encodeNat, Char.ofNat_toNat]

/-- String as a length-prefixed character list. -/
def encodeString (s : String) : List Nat := encodeList encodeChar s.data

/-- Inverse of encodeString. -/
def decodeString (bs : List Nat) : Option (String × List Nat) :=
  match decodeList decodeChar bs with
  | some (cs, r) => some (String.mk cs, r)
  | none => none

theorem decodeString_encodeString (s : String) (r : List Nat) :
    decodeString (encodeString s ++ r) = some (s, r) := by
  rw [decodeString, encodeString, decodeList_encodeList decodeChar_encodeChar]

/-- Serialized Artist: the three string fields in order. -/
def encodeArtist (a : Artist) : List Nat :=
  encodeString a.id ++ encodeString a.uri ++ encodeString a.name

/-- Inverse of encodeArtist. -/
def decodeArtist (bs : List Nat) : Option (Artist × List Nat) :=
  match decodeString bs with
  | some (id, bs1) =>
    match decodeString bs1 with
    | some (uri, bs2) =>
      match decodeString bs2 with
      | some (name, bs3) => some (⟨id, uri, name⟩, bs3)
      | none => none
    | none => none
  | none => none

theorem decodeArtist_encodeArtist (a : Artist) (r : List Nat) :
    decodeArtist (encodeArtist a ++ r) = some (a, r) := by
  simp [encodeArtist, decodeArtist, List.append_assoc, decodeString_encodeString]

/-- Serialized Track: four strings, the duration, then the artists. -/
def encodeTrack (t : Track) : List Nat :=
  encodeString t.id ++ encodeString t.uri ++ encodeString t.type ++
    encodeString t.name ++ encodeInt t.duration ++ encodeList encodeArtist t.artists

/-- Inverse of encodeTrack. -/
def decodeTrack (bs : List Nat) : Option (Track × List Nat) :=
  match decodeString bs with
  | some (id, bs1) =>
    match decodeString bs1 with
    | some (uri, bs2) =>
      match decodeString bs2 with
      | some (ty, bs3) =>
        match decodeString bs3 with
        | some (name, bs4) =>
          match decodeInt bs4 with
          | some (dur, bs5) =>
            match decodeList decodeArtist bs5 with
            | some (artists, bs6) => some (⟨id, uri, ty, name, dur, artists⟩, bs6)
            | none => none
          | none => none
        | none => none
      | none => none
    | none => none
  | none => none

theorem decodeTrack_encodeTrack (t : Track) (r : List Nat) :
    decodeTrack (encodeTrack t ++ r) = some (t, r) := by
  simp [encodeTrack, decodeTrack, List.append_assoc, decodeString_encodeString,
    decodeInt_encodeInt, decodeList_encodeList decodeArtist_encodeArtist]

/-- Serialized Playback: the four string fields in order. -/
def encodePlayback (p : Playback) : List Nat :=
  encodeString p.trackId ++ encodeString p.trackUri ++
    encodeString p.contextType ++ encodeString p.contextUri

/-- Inverse of encodePlayback. -/
def decodePlayback (bs : List Nat) : Option (Playback × List Nat) :=
  match decodeString bs with
  | some (trackId, bs1) =>
    match decodeString bs1 with
    | some (trackUri, bs2) =>
      match decodeString bs2 with
      | some (contextType, bs3) =>
        match decodeString bs3 with
        | some (contextUri, bs4) => some (⟨trackId, trackUri, contextType, contextUri⟩, bs4)
        | none => none
      | none => none
    | none => none
  | none => none

theorem decodePlayback_encodePlayback (p : Playback) (r : List Nat) :
    decodePlayback (encodePlayback p ++ r) = some (p, r) := by
  simp [encodePlayback, decodePlayback, List.append_assoc, decodeString_encodeString]

/-- Serialized Auth: client id, client secret, token bytes. -/
def encodeAuth (a : Auth) : List Nat :=
  encodeString a.clientId ++ encodeString a.clientSecret ++ encodeList encodeNat a.token

/-- Inverse of encodeAuth. -/
def decodeAuth (bs : List Nat) : Option (Auth × List Nat) :=
  match decodeString bs with
  | some (clientId, bs1) =>
    match decodeString bs1 with
    | some (clientSecret, bs2) =>
      match decodeList decodeNat bs2 with
      | some (token, bs3) => some (⟨clientId, clientSecret, token⟩, bs3)
      | none => none
    | none => none
  | none => none

theorem decodeAuth_encodeAuth (a : Auth) (r : List Nat) :
    decodeAuth (encodeAuth a ++ r) = some (a, r) := by
  simp [encodeAuth, decodeAuth, List.append_assoc, decodeString_encodeString,
    decodeList_encodeList decodeNat_encodeNat]

/-- Serialized optional Auth: presence byte then the record when present. -/
def encodeAuthOpt : Option Auth → List Nat
  | none => [0]
  | some a => 1 :: encodeAuth a

/-- Inverse of encodeAuthOpt. -/
def decodeAuthOpt : List Nat → Option (Option Auth × List Nat)
  | 0 :: rest => some (none, rest)
  | 1 :: rest =>
    match decodeAuth rest with
    | some (a, r) => some (some a, r)
    | none => none
  | _ => none

theorem decodeAuthOpt_encodeAuthOpt (a : Option Auth) (r : List Nat) :
    decodeAuthOpt (encodeAuthOpt a ++ r) = some (a, r) := by
  cases a with
  | none => rfl
  | some a => simp [encodeAuthOpt, decodeAuthOpt, decodeAuth_encodeAuth]

/-- Serialized playback map entry: timestamp key then the record. -/
def encodePlaybackEntry (kv : Int × Playback) : List Nat :=
  encodeInt kv.1 ++ encodePlayback kv.2

/-- Inverse of encodePlaybackEntry. -/
def decodePlaybackEntry (bs : List Nat) : Option ((Int × Playback) × List Nat) :=
  match decodeInt bs with
  | some (k, bs1) =>
    match decodePlayback bs1 with
    | some (p, bs2) => some ((k, p), bs2)
    | none => none
  | none => none

theorem decodePlaybackEntry_encodePlaybackEntry (kv : Int × Playback) (r : List Nat) :
    decodePlaybackEntry (encodePlaybackEntry kv ++ r) = some (kv, r) := by
  simp [encodePlaybackEntry, decodePlaybackEntry, List.append_assoc,
    decodeInt_encodeInt, decodePlayback_encodePlayback]

/-- Serialized track map entry: id key then the record. -/
def encodeTrackEntry (kv : String × Track) : List Nat :=
  encodeString kv.1 ++ encodeTrack kv.2

/-- Inverse of encodeTrackEntry. -/
def decodeTrackEntry (bs : List Nat) : Option ((String × Track) × List Nat) :=
  match decodeString bs with
  | some (k, bs1) =>
    match decodeTrack bs1 with
    | some (t, bs2) => some ((k, t), bs2)
    | none => none
  | none => none

theorem decodeTrackEntry_encodeTrackEntry (kv : String × Track) (r : List Nat) :
    decodeTrackEntry (encodeTrackEntry kv ++ r) = some (kv, r) := by
  simp [encodeTrackEntry, decodeTrackEntry, List.append_assoc,
    decodeString_encodeString, decodeTrack_encodeTrack]

/-- Serialized Store: playback entries, track entries, auth. -/
def encodeStore (s : Store) : List Nat :=
  encodeList encodePlaybackEntry s.playbacks ++
    encodeList encodeTrackEntry s.tracks ++ encodeAuthOpt s.auth

/-- Inverse of encodeStore. -/
def decodeStore (bs : List Nat) : Option (Store × List Nat) :=
  match decodeList decodePlaybackEntry bs with
  | some (playbacks, bs1) =>
    match decodeList decodeTrackEntry bs1 with
    | some (tracks, bs2) =>
      match decodeAuthOpt bs2 with
      | some (auth, bs3) => some (⟨playbacks, tracks, auth⟩, bs3)
      | none => none
    | none => none
  | none => none

theorem decodeStore_encodeStore (s : Store) (r : List Nat) :
    decodeStore (encodeStore s ++ r) = some (s, r) := by
  simp [encodeStore, decodeStore, List.append_assoc,
    decodeList_encodeList decodePlaybackEntry_encodePlaybackEntry,
    decodeList_encodeList decodeTrackEntry_encodeTrackEntry,
    decodeAuthOpt_encodeAuthOpt]

/-- Run-length compression of the serialized bytes (stands for the zstd
streaming compressor: a general-purpose invertible compressor). -/
def rleCompress : List Nat → List (Nat × Nat)
  | [] => []
  | x :: xs =>
    match rleCompress xs with
    | (v, n) :: rest => if x = v then (v, n + 1) :: rest else (x, 1) :: (v, n) :: rest
    | [] => [(x, 1)]

/-- Run-length decompression. -/
def rleDecompress (l : List (Nat × Nat)) : List Nat :=
  (l.map (fun p => List.replicate p.2 p.1)).flatten

theorem rleDecompress_rleCompress (bs : List Nat) :
    rleDecompress (rleCompress bs) = bs := by
  induction bs with
  | nil => rfl
  | cons x xs ih =>
    rw [rleCompress]
    cases hc : rleCompress xs with
    | nil =>
      rw [hc] at ih
      simp only [rleDecompress, List.map_nil, List.flatten_nil] at ih
      simp [rleDecompress, ih.symm]
    | cons p rest =>
      obtain ⟨v, n⟩ := p
      rw [hc] at ih
      by_cases hx : x = v
      · subst hx
        simp only [eq_self_iff_true, if_true, rleDecompress, List.map_cons,
          List.flatten_cons] at ih ⊢
        rw [List.replicate_succ, List.cons_append, ih]
      · simp only [if_neg hx]
        simp only [rleDecompress, List.map_cons, List.flatten_cons] at ih ⊢
        rw [ih]
        rfl

/-- Export of a store: serialize then compress (the spec's Export path,
proto.Marshal followed by the zstd writer). -/
def exportStore (s : Store) : List (Nat × Nat) :=
  rleCompress (encodeStore s)

/-- Import of a snapshot: decompress then deserialize, rejecting trailing
garbage (the spec's Import path, zstd reader followed by proto.Unmarshal). -/
def importStore (bs : List (Nat × Nat)) : Except String Store :=
  match decodeStore (rleDecompress bs) with
  | some (s, []) => .ok s
  | _ => .error "unmarshal data"

/-- C4: Import of an Export round-trips: the playback key set, track key set
and auth content of the reconstructed store equal those of the original
(here the reconstruction is the original store itself). -/
theorem import_export_roundtrip (s : Store) :
    ∃ s', importStore (exportStore s) = .ok s'
      ∧ s'.playbacks.map Prod.fst = s.playbacks.map Prod.fst
      ∧ s'.tracks.map Prod.fst = s.tracks.map Prod.fst
      ∧ s'.auth = s.auth := by
  refine ⟨s, ?_, rfl, rfl, rfl⟩
  rw [importStore, exportStore, rleDecompress_rleCompress]
  have := decodeStore_encodeStore s []
  rw [List.append_nil] at this
  rw [this]

/-! Startup data loading: Server.initData of subcommands/serve/server.go.
The gocloud blob reader is the external durable-store collaborator: a read of
a missing key yields an error (modelled as an Except.error argument), a
successful read yields the snapshot bytes.  The oauth-token unmarshalling and
client construction of the read branch concern only the external oauth
collaborator and are outside the loaded-store shape the claims ask about. -/

/-- The empty-but-initialized store built by the unconfigured branch of
initData (make-initialized maps and a fresh Auth record). -/
def emptyStore : Store := ⟨[], [], some emptyAuth⟩

/-- Server.initData: with a configured bucket and key every reader error
(including a not-found key) is surfaced as an error and the snapshot bytes
are otherwise imported; only when bucket or key is unconfigured does it
install the empty initialized store. -/
def initData (bucket key : String) (blob : Except String (List (Nat × Nat))) :
    Except String Store :=
  if bucket ≠ "" && key ≠ "" then
    match blob with
    | .error e => .error ("open object: " ++ e)
    | .ok bs =>
      match importStore bs with
      | .ok st => .ok st
      | .error e => .error e
  else
    .ok emptyStore

/-- C5 counterexample: on a configured bucket/key whose object is missing
(first run ever), initData returns an error, not an empty initialized
store. -/
theorem initData_not_found_errors :
    initData "gs://earbug" "ihwa.pb.zstd" (.error "object not found") =
      .error "open object: object not found" := rfl

/-- C5 amended: only when no initial bucket/key is configured does the
loader return the empty-but-initialized store (non-nil maps, fresh Auth
record), and that store accepts an Ingest: a merged raw event is present
afterwards. -/
theorem initData_unconfigured_empty_store (bucket key : String)
    (blob : Except String (List (Nat × Nat))) (h : bucket = "" ∨ key = "") :
    initData bucket key blob = .ok emptyStore
    ∧ emptyStore.playbacks = [] ∧ emptyStore.tracks = []
    ∧ emptyStore.auth = some emptyAuth
    ∧ ∀ e : RawEvent,
        lookupKey e.playedAt (ingest emptyStore [e]).playbacks = some (playbackOfItem e) := by
  refine ⟨?_, rfl, rfl, rfl, ?_⟩
  · unfold initData
    rw [if_neg]
    rcases h with rfl | rfl <;> simp
  · intro e
    show lookupKey e.playedAt (ingestOne emptyStore e).playbacks = some (playbackOfItem e)
    rw [ingestOne]
    have hpb : lookupKey e.playedAt emptyStore.playbacks = none := rfl
    rw [hpb]
    have hkey : lookupKey e.playedAt (emptyStore.playbacks ++ [(e.playedAt, playbackOfItem e)]) =
        some (playbackOfItem e) := by
      rw [lookupKey_append_none _ hpb, lookupKey_self]
    cases htr : lookupKey e.track.id
        ({ emptyStore with
            playbacks := emptyStore.playbacks ++ [(e.playedAt, playbackOfItem e)] } : Store).tracks <;>
      simp_all

theorem initData_unconfigured_empty_store_witness :
    initData "" "ihwa.pb.zstd" (.ok []) = .ok emptyStore
    ∧ lookupKey eventW.playedAt (ingest emptyStore [eventW]).playbacks =
        some (playbackOfItem eventW) := by
  obtain ⟨h1, _, _, _, h5⟩ :=
    initData_unconfigured_empty_store "" "ihwa.pb.zstd" (.ok []) (Or.inl rfl)
  exact ⟨h1, h5 eventW⟩

/-! Authorization.  NewAuthState generates a cryptographically random state
string (crypto/rand + base64); the model takes the generated string as an
argument.  The authorization URL produced by the oauth configuration carries
the client id and the state. -/

/-- AuthState of serve/auth.go and part_003: the pending state string and
the oauth configuration fields the model needs. -/
structure AuthState where
  state : String
  clientId : String
  clientSecret : String
  redirectURL : String
deriving DecidableEq, Repr

/-- NewAuthState with the random state supplied by the caller. -/
def newAuthState (clientID clientSecret redirectURL rnd : String) : AuthState :=
  ⟨rnd, clientID, clientSecret, redirectURL⟩

/-- Authorization URL for a client id and state (spotify authorize endpoint
with the query parameters the model tracks). -/
def authURL (clientId state : String) : String :=
  "https://accounts.spotify.com/authorize?client_id=" ++ clientId ++ "&state=" ++ state

/-- Outcome of an auth callback handler. -/
inductive CbResult where
  | authErr (msg : String)
  | nilDeref
  | okSt (st : Store)
deriving DecidableEq, Repr

/-- Server.hAuthCallback of subcommands/serve/auth.go.  The state comparison
lives in the spotify auth library used at the call site: Authenticator.Token
(ctx, state, r) fails when the request's state parameter differs from the
given pending state; on match it exchanges the code for a token.  Exchange
is the external authorization collaborator.  On success the marshalled token
replaces store.Auth.Token (a nil Auth would be dereferenced). -/
def hAuthCallback (as : AuthState) (presented code : String)
    (exchange : String → Option (List Nat)) (store : Store) : CbResult :=
  if presented ≠ as.state then .authErr "get token from request"
  else
    match exchange code with
    | none => .authErr "get token from request"
    | some tok =>
      match store.auth with
      | none => .nilDeref
      | some a => .okSt { store with auth := some { a with token := tok } }

set_option linter.unusedVariables false in
/-- App.hAuthCallback of part_003: loads the pending AuthState but never
compares the request's state parameter with it; it exchanges the code
directly.  The as and presented arguments are deliberately unused, mirroring
the source. -/
def hAuthCallbackApp (as : AuthState) (presented code : String)
    (exchange : String → Option (List Nat)) (store : Store) : CbResult :=
  match exchange code with
  | none => .authErr "get token from request"
  | some tok =>
    match store.auth with
    | none => .nilDeref
    | some a => .okSt { store with auth := some { a with token := tok } }

/-- Pending state of the auth witnesses. -/
def authStateW : AuthState := ⟨"pending-state", "id", "secret", "https://cb"⟩

/-- Exchange collaborator of the auth witnesses: every code yields token
bytes [7]. -/
def exchangeW : String → Option (List Nat) := fun _ => some [7]

/-- Store with a stored token [1] for the auth witnesses. -/
def storeTokW : Store := ⟨[], [], some ⟨"id", "secret", [1]⟩⟩

/-- C6 counterexample: App.hAuthCallback accepts a state different from the
pending one and replaces the stored token, because it never validates the
presented state. -/
theorem hAuthCallbackApp_accepts_stale_state :
    hAuthCallbackApp authStateW "stale-state" "code" exchangeW storeTokW =
      .okSt ⟨[], [], some ⟨"id", "secret", [7]⟩⟩
    ∧ "stale-state" ≠ authStateW.state := by
  constructor
  · rfl
  · decide

/-- C6 amended: in the connect Server version the callback rejects any
presented state that differs from the currently pending one with an auth
error, and the store (hence the stored token) is untouched; the part_003 App
version performs no such validation. -/
theorem hAuthCallback_rejects_mismatched_state (as : AuthState)
    (presented code : String) (exchange : String → Option (List Nat))
    (store : Store) (h : presented ≠ as.state) :
    hAuthCallback as presented code exchange store = .authErr "get token from request" := by
  unfold hAuthCallback
  rw [if_pos h]

theorem hAuthCallback_rejects_mismatched_state_witness :
    hAuthCallback authStateW "stale-state" "code" exchangeW storeTokW =
      .authErr "get token from request" :=
  hAuthCallback_rejects_mismatched_state authStateW "stale-state" "code"
    exchangeW storeTokW (by decide)

/-- The spec's credential resolution rule, for comparison with the source:
an empty candidate keeps the stored value, a non-empty candidate replaces
it. -/
def resolveField (cand stored : String) : String :=
  if cand = "" then stored else cand

/-- Server.Authorize of subcommands/serve/auth.go.  For each credential an
empty candidate reads the stored value (a nil Auth is dereferenced there,
modelled as none) and a non-empty candidate overwrites it (creating Auth for
the id when nil).  The handler then stores a fresh AuthState and returns the
authorization URL; it has no failure branch for empty resolved
credentials. -/
def authorizeV4 (candId candSecret : String) (store : Store) (rnd : String) :
    Option (Store × String) :=
  match
    (if candId = "" then
      match store.auth with
      | none => none
      | some a => some (a.clientId, store)
    else
      some (candId,
        { store with auth := some { store.auth.getD emptyAuth with clientId := candId } }))
  with
  | none => none
  | some (cid, store1) =>
    match
      (if candSecret = "" then
        match store1.auth with
        | none => none
        | some a => some (a.clientSecret, store1)
      else
        match store1.auth with
        | none => none
        | some a => some (candSecret, { store1 with auth := some { a with clientSecret := candSecret } }))
    with
    | none => none
    | some (csec, store2) =>
      some (store2, authURL cid (newAuthState cid csec "" rnd).state)

/-- C7 counterexample: Server.Authorize with empty candidates over a store
whose Auth record holds empty credentials succeeds and returns an
authorization URL; it does not fail even though both resolved values are
empty. -/
theorem authorizeV4_no_failure_on_empty :
    authorizeV4 "" "" ⟨[], [], some emptyAuth⟩ "rnd-state" =
      some (⟨[], [], some emptyAuth⟩, authURL "" "rnd-state") := rfl

/-- App.hAuthorize of part_003: the same resolution under the store lock,
but followed by a missing-credentials check that fails the request with 400
when either resolved value is empty.  Returns the possibly mutated store
together with the result. -/
def hAuthorizeApp (candId candSecret : String) (store : Store) (rnd : String) :
    Store × Except String String :=
  let p1 : String × Store :=
    if candId == "" && (match store.auth with
        | some a => a.clientId != ""
        | none => false) then
      ((store.auth.getD emptyAuth).clientId, store)
    else
      (candId,
        { store with auth := some { store.auth.getD emptyAuth with clientId := candId } })
  let p2 : String × Store :=
    if candSecret == "" && (match p1.2.auth with
        | some a => a.clientSecret != ""
        | none => false) then
      ((p1.2.auth.getD emptyAuth).clientSecret, p1.2)
    else
      (candSecret,
        { p1.2 with auth := some { p1.2.auth.getD emptyAuth with clientSecret := candSecret } })
  (p2.2,
    if p1.1 = "" ∨ p2.1 = "" then .error "missing oauth client"
    else .ok (authURL p1.1 (newAuthState p1.1 p2.1 "" rnd).state))

/-- C7 amended: App.hAuthorize resolves each credential independently (empty
candidate keeps the stored value, non-empty candidate overwrites it), fails
with the missing-oauth-client error exactly when a resolved value is still
empty, and otherwise returns the authorization URL for the resolved id;
Server.Authorize (the connect version) performs the same resolution but has
no failure branch. -/
theorem hAuthorizeApp_resolution_spec (candId candSecret : String)
    (store : Store) (rnd : String) :
    hAuthorizeApp candId candSecret store rnd =
      (let a0 := store.auth.getD emptyAuth
       let cid := resolveField candId a0.clientId
       let csec := resolveField candSecret a0.clientSecret
       ({ store with auth := some { a0 with clientId := cid, clientSecret := csec } },
        if cid = "" ∨ csec = "" then .error "missing oauth client"
        else .ok (authURL cid (newAuthState cid csec "" rnd).state))) := by
  obtain ⟨pb, tr, au⟩ := store
  cases au with
  | none =>
    by_cases hid : candId = "" <;> by_cases hsec : candSecret = "" <;>
      simp [hAuthorizeApp, resolveField, emptyAuth, hid, hsec]
  | some a =>
    obtain ⟨sid, ssec, stok⟩ := a
    by_cases hid : candId = "" <;> by_cases hsec : candSecret = "" <;>
      by_cases hsid : sid = "" <;> by_cases hssec : ssec = "" <;>
      simp [hAuthorizeApp, resolveField, emptyAuth, hid, hsec, hsid, hssec]

/-! Aggregation views: the sort steps of handleArtists and handleTracks.
The Go sort.Slice is an unstable comparison sort; it is modelled by an
insertion sort over the same less function, realizing one ordering
consistent with the comparator, and the ordering claims are stated as
Pairwise properties that any comparator-consistent order satisfies. -/

/-- TrackData of handleArtists: per-track breakdown inside an artist. -/
structure ArtistTrackAgg where
  id : String
  name : String
  plays : Nat
  time : Int
deriving DecidableEq, Repr

/-- ArtistData of handleArtists. -/
structure ArtistAgg where
  name : String
  plays : Nat
  time : Int
  tracks : List ArtistTrackAgg
deriving DecidableEq, Repr

/-- TrackData of handleTracks. -/
structure TrackAgg where
  name : String
  plays : Nat
  time : Int
deriving DecidableEq, Repr

/-- Count-descending with name-ascending tie-break, the shared shape of the
plays and tracks comparators. -/
def natNameLess (pa pb : Nat) (na nb : String) : Bool :=
  if pa = pb then decide (na < nb) else decide (pa > pb)

/-- The handleArtists comparator of subcommands/serve/web.go: plays and
tracks sort descending with the name tie-break, but time sorts ascending
with no tie-break. -/
def artistLessServe (sortOrder : String) (a b : ArtistAgg) : Bool :=
  match sortOrder with
  | "tracks" => natNameLess a.tracks.length b.tracks.length a.name b.name
  | "time" => decide (a.time < b.time)
  | _ => natNameLess a.plays b.plays a.name b.name

/-- The App.handleArtists comparator of part_003: as the serve version but
with time sorting descending (still without the name tie-break). -/
def artistLessApp (sortOrder : String) (a b : ArtistAgg) : Bool :=
  match sortOrder with
  | "tracks" => natNameLess a.tracks.length b.tracks.length a.name b.name
  | "time" => decide (a.time > b.time)
  | _ => natNameLess a.plays b.plays a.name b.name

/-- The handleTracks comparator (identical in both versions): plays
descending with name tie-break, time descending without tie-break. -/
def trackAggLess (sortOrder : String) (a b : TrackAgg) : Bool :=
  match sortOrder with
  | "time" => decide (a.time > b.time)
  | _ => natNameLess a.plays b.plays a.name b.name

/-- Insertion step of the comparator sort. -/
def insertBy {α : Type} (less : α → α → Bool) (x : α) : List α → List α
  | [] => [x]
  | y :: ys => if less x y then x :: y :: ys else y :: insertBy less x ys

/-- Comparator sort standing for sort.Slice. -/
def sortBy {α : Type} (less : α → α → Bool) : List α → List α
  | [] => []
  | x :: xs => insertBy less x (sortBy less xs)

theorem mem_insertBy {α : Type} {less : α → α → Bool} {x z : α} {l : List α}
    (h : z ∈ insertBy less x l) : z = x ∨ z ∈ l := by
  induction l with
  | nil =>
    simp [insertBy] at h
    exact Or.inl h
  | cons y ys ih =>
    by_cases hc : less x y
    · simp only [insertBy, if_pos hc] at h
      rcases List.mem_cons.mp h with rfl | h2
      · exact Or.inl rfl
      · exact Or.inr h2
    · simp only [insertBy, if_neg hc] at h
      rcases List.mem_cons.mp h with rfl | h2
      · exact Or.inr (List.mem_cons_self _ _)
      · rcases ih h2 with rfl | h3
        · exact Or.inl rfl
        · exact Or.inr (List.mem_cons_of_mem _ h3)

theorem pairwise_insertBy {α : Type} {less : α → α → Bool}
    (hAsym : ∀ a b, less a b = true → less b a = false)
    (hTrans : ∀ a b c, less a b = true → less c b = false → less c a = false)
    {l : List α} (hl : l.Pairwise (fun a b => less b a = false)) (x : α) :
    (insertBy less x l).Pairwise (fun a b => less b a = false) := by
  induction l with
  | nil => simp [insertBy]
  | cons y ys ih =>
    rw [List.pairwise_cons] at hl
    obtain ⟨hy, hys⟩ := hl
    by_cases hc : less x y
    · simp only [insertBy, if_pos hc, List.pairwise_cons]
      refine ⟨?_, hy, hys⟩
      intro z hz
      rcases List.mem_cons.mp hz with rfl | hz2
      · exact hAsym x z hc
      · exact hTrans x y z hc (hy z hz2)
    · simp only [insertBy, if_neg hc, List.pairwise_cons]
      refine ⟨?_, ih hys⟩
      intro z hz
      rcases mem_insertBy hz with rfl | hz2
      · exact Bool.eq_false_iff.mpr (fun habs => absurd habs (by simp [hc]))
      · exact hy z hz2

theorem pairwise_sortBy {α : Type} {less : α → α → Bool}
    (hAsym : ∀ a b, less a b = true → less b a = false)
    (hTrans : ∀ a b c, less a b = true → less c b = false → less c a = false)
    (l : List α) :
    (sortBy less l).Pairwise (fun a b => less b a = false) := by
  induction l with
  | nil => simp [sortBy]
  | cons x xs ih => exact pairwise_insertBy hAsym hTrans ih x

theorem natNameLess_asymm {pa pb : Nat} {na nb : String}
    (h : natNameLess pa pb na nb = true) : natNameLess pb pa nb na = false := by
  unfold natNameLess at *
  by_cases he : pa = pb
  · subst he
    rw [if_pos rfl] at h ⊢
    simp only [decide_eq_true_eq] at h
    simp only [decide_eq_false_iff_not]
    exact lt_asymm h
  · rw [if_neg he] at h
    rw [if_neg (fun hba => he hba.symm)]
    simp only [decide_eq_true_eq] at h
    simp only [decide_eq_false_iff_not]
    omega

theorem natNameLess_trans {p1 p2 p3 : Nat} {n1 n2 n3 : String}
    (h1 : natNameLess p1 p2 n1 n2 = true) (h2 : natNameLess p3 p2 n3 n2 = false) :
    natNameLess p3 p1 n3 n1 = false := by
  unfold natNameLess at *
  by_cases e12 : p1 = p2
  · subst e12
    rw [if_pos rfl] at h1
    simp only [decide_eq_true_eq] at h1
    by_cases e31 : p3 = p1
    · rw [if_pos e31] at h2
      simp only [decide_eq_false_iff_not] at h2
      rw [if_pos e31]
      simp only [decide_eq_false_iff_not]
      intro h3
      exact h2 (lt_trans h3 h1)
    · rw [if_neg e31] at h2 ⊢
      exact h2
  · rw [if_neg e12] at h1
    simp only [decide_eq_true_eq] at h1
    by_cases e32 : p3 = p2
    · have e31 : ¬ p3 = p1 := by omega
      rw [if_neg e31]
      simp only [decide_eq_false_iff_not]
      omega
    · rw [if_neg e32] at h2
      simp only [decide_eq_false_iff_not] at h2
      have e31 : ¬ p3 = p1 := by omega
      rw [if_neg e31]
      simp only [decide_eq_false_iff_not]
      omega

theorem natNameLess_false {pa pb : Nat} {na nb : String}
    (h : natNameLess pb pa nb na = false) :
    pb < pa ∨ (pb = pa ∧ na ≤ nb) := by
  unfold natNameLess at h
  by_cases he : pb = pa
  · rw [if_pos he] at h
    simp only [decide_eq_false_iff_not] at h
    exact Or.inr ⟨he, le_of_not_lt h⟩
  · rw [if_neg he] at h
    simp only [decide_eq_false_iff_not] at h
    omega

/-- Plays descending, name ascending on ties (artists). -/
def DescPlaysNameAsc (a b : ArtistAgg) : Prop :=
  b.plays < a.plays ∨ (b.plays = a.plays ∧ a.name ≤ b.name)

/-- Distinct-track count descending, name ascending on ties (artists). -/
def DescTracksNameAsc (a b : ArtistAgg) : Prop :=
  b.tracks.length < a.tracks.length ∨ (b.tracks.length = a.tracks.length ∧ a.name ≤ b.name)

/-- Accumulated time ascending (artists; no tie-break). -/
def AscTimeArtist (a b : ArtistAgg) : Prop := a.time ≤ b.time

/-- Accumulated time descending (artists; no tie-break). -/
def DescTimeArtist (a b : ArtistAgg) : Prop := b.time ≤ a.time

/-- Plays descending, name ascending on ties (tracks). -/
def DescPlaysNameAscT (a b : TrackAgg) : Prop :=
  b.plays < a.plays ∨ (b.plays = a.plays ∧ a.name ≤ b.name)

/-- Accumulated time descending (tracks; no tie-break). -/
def DescTimeT (a b : TrackAgg) : Prop := b.time ≤ a.time

/-- C8 amended: plays and distinct-track metrics sort descending with the
name-ascending tie-break, in both artist views and the track view; the time
metric carries no name tie-break anywhere, sorts descending in
App.handleArtists and handleTracks, and sorts ascending in the serve
handleArtists comparator. -/
theorem aggregation_sort_orders :
    (∀ l : List ArtistAgg, (sortBy (artistLessServe "plays") l).Pairwise DescPlaysNameAsc)
    ∧ (∀ l : List ArtistAgg, (sortBy (artistLessServe "tracks") l).Pairwise DescTracksNameAsc)
    ∧ (∀ l : List ArtistAgg, (sortBy (artistLessServe "time") l).Pairwise AscTimeArtist)
    ∧ (∀ l : List ArtistAgg, (sortBy (artistLessApp "time") l).Pairwise DescTimeArtist)
    ∧ (∀ l : List TrackAgg, (sortBy (trackAggLess "plays") l).Pairwise DescPlaysNameAscT)
    ∧ (∀ l : List TrackAgg, (sortBy (trackAggLess "time") l).Pairwise DescTimeT) := by
  refine ⟨?_, ?_, ?_, ?_, ?_, ?_⟩
  · intro l
    refine (pairwise_sortBy ?_ ?_ l).imp ?_
    · exact fun a b h => natNameLess_asymm h
    · exact fun a b c h1 h2 => natNameLess_trans h1 h2
    · exact fun h => natNameLess_false h
  · intro l
    refine (pairwise_sortBy ?_ ?_ l).imp ?_
    · exact fun a b h => natNameLess_asymm h
    · exact fun a b c h1 h2 => natNameLess_trans h1 h2
    · exact fun h => natNameLess_false h
  · intro l
    refine (pairwise_sortBy ?_ ?_ l).imp ?_
    · intro a b h
      simp only [artistLessServe, decide_eq_true_eq] at h
      simp only [artistLessServe, decide_eq_false_iff_not]
      omega
    · intro a b c h1 h2
      simp only [artistLessServe, decide_eq_true_eq] at h1
      simp only [artistLessServe, decide_eq_false_iff_not] at h2 ⊢
      omega
    · intro a b h
      simp only [artistLessServe, decide_eq_false_iff_not] at h
      exact le_of_not_lt h
  · intro l
    refine (pairwise_sortBy ?_ ?_ l).imp ?_
    · intro a b h
      simp only [artistLessApp, decide_eq_true_eq] at h
      simp only [artistLessApp, decide_eq_false_iff_not]
      omega
    · intro a b c h1 h2
      simp only [artistLessApp, decide_eq_true_eq] at h1
      simp only [artistLessApp, decide_eq_false_iff_not] at h2 ⊢
      omega
    · intro a b h
      simp only [artistLessApp, decide_eq_false_iff_not] at h
      exact le_of_not_lt h
  · intro l
    refine (pairwise_sortBy ?_ ?_ l).imp ?_
    · exact fun a b h => natNameLess_asymm h
    · exact fun a b c h1 h2 => natNameLess_trans h1 h2
    · exact fun h => natNameLess_false h
  · intro l
    refine (pairwise_sortBy ?_ ?_ l).imp ?_
    · intro a b h
      simp only [trackAggLess, decide_eq_true_eq] at h
      simp only [trackAggLess, decide_eq_false_iff_not]
      omega
    · intro a b c h1 h2
      simp only [trackAggLess, decide_eq_true_eq] at h1
      simp only [trackAggLess, decide_eq_false_iff_not] at h2 ⊢
      omega
    · intro a b h
      simp only [trackAggLess, decide_eq_false_iff_not] at h
      exact le_of_not_lt h

/-- Artist aggregate rows of the C8 counterexample, equal plays, distinct
accumulated times. -/
def artistAggA : ArtistAgg := ⟨"A", 1, 10, []⟩

/-- Second artist aggregate row, with more accumulated time. -/
def artistAggB : ArtistAgg := ⟨"B", 1, 20, []⟩

/-- C8 counterexample: the serve handleArtists view sorted by the time
metric puts the smaller accumulated time first: the output is ascending,
not descending as claimed. -/
theorem artists_by_time_sorted_ascending :
    sortBy (artistLessServe "time") [artistAggA, artistAggB] = [artistAggA, artistAggB]
    ∧ artistAggA.time < artistAggB.time := by
  constructor
  · rfl
  · decide

/-! Coalescer.  Modelled from the spec: the per-actor execution gate used by
Server.update is golang.org/x/sync/singleflight, an external dependency with
no source under src/.  Per the spec's Coalescer contract it keeps one
in-flight call per key; a call joining an existing key blocks as a waiter of
that execution, a call on a free key starts a new execution, and completion
delivers the one result to every waiter and frees the key.  The concurrent
interleaving is sequentialized as a trace of call and completion events. -/

/-- One coalescer event: a caller invoking Do with a key, or the in-flight
execution for a key completing with a result. -/
inductive SFEvent (α : Type) where
  | call (caller : Nat) (key : String)
  | complete (key : String) (res : α)

/-- The coalescer group state: for each in-flight key, the callers waiting
on that single execution, in arrival order. -/
abbrev SFState := List (String × List Nat)

/-- One step of the coalescer: returns the new state, the (caller, result)
deliveries of the step, and how many executions of the wrapped operation the
step started. -/
def sfStep {α : Type} (st : SFState) : SFEvent α → SFState × List (Nat × α) × Nat
  | .call c k =>
    match lookupKey k st with
    | some ws => ((k, ws ++ [c]) :: st.filter (fun kv => kv.1 ≠ k), [], 0)
    | none => (st ++ [(k, [c])], [], 1)
  | .complete k r =>
    match lookupKey k st with
    | some ws => (st.filter (fun kv => kv.1 ≠ k), ws.map (fun c => (c, r)), 0)
    | none => (st, [], 0)

/-- Run a trace of coalescer events, accumulating deliveries and execution
count. -/
def sfRun {α : Type} (st : SFState) : List (SFEvent α) → SFState × List (Nat × α) × Nat
  | [] => (st, [], 0)
  | ev :: evs =>
    let s1 := sfStep st ev
    let s2 := sfRun s1.1 evs
    (s2.1, s1.2.1 ++ s2.2.1, s1.2.2 + s2.2.2)

theorem sfRun_joined {α : Type} (k : String) (r : α) (cs : List Nat) (ws : List Nat) :
    sfRun [(k, ws)] (cs.map (fun c => SFEvent.call c k) ++ [SFEvent.complete k r]) =
      ([], (ws ++ cs).map (fun c => (c, r)), 0) := by
  induction cs generalizing ws with
  | nil =>
    simp [sfRun, sfStep, lookupKey, List.filter]
  | cons c cs ih =>
    simp only [List.map_cons, List.cons_append, sfRun, sfStep, lookupKey,
      eq_self_iff_true, if_true, List.append_eq]
    rw [show (List.filter (fun kv => decide (kv.1 ≠ k)) [(k, ws)]) = [] by
      simp [List.filter]]
    rw [ih (ws ++ [c])]
    simp

/-- C3: callers invoking Do with the same key while an execution is in
flight all coalesce onto it: with one initiating caller and any number of
joining callers, exactly one execution of the operation occurs, every caller
receives that execution's result, and once it completes a further call on
the key starts a fresh execution. -/
theorem singleflight_coalesces {α : Type} (k : String) (r : α) (c0 c1 : Nat)
    (cs : List Nat) :
    (sfRun [] (SFEvent.call c0 k ::
        (cs.map (fun c => SFEvent.call c k) ++ [SFEvent.complete k r]))).2.1 =
      (c0 :: cs).map (fun c => (c, r))
    ∧ (sfRun [] (SFEvent.call c0 k ::
        (cs.map (fun c => SFEvent.call c k) ++ [SFEvent.complete k r]))).2.2 = 1
    ∧ (sfStep (sfRun [] (SFEvent.call c0 k ::
        (cs.map (fun c => SFEvent.call c k) ++ [SFEvent.complete k r]))).1
        (SFEvent.call c1 k) : SFState × List (Nat × α) × Nat).2.2 = 1 := by
  have hfirst : (sfStep ([] : SFState) (SFEvent.call c0 k) : SFState × List (Nat × α) × Nat) =
      ([(k, [c0])], [], 1) := by
    simp [sfStep, lookupKey]
  have hrun := sfRun_joined k r cs [c0]
  refine ⟨?_, ?_, ?_⟩ <;>
    simp [sfRun, hfirst, hrun, sfStep, lookupKey]

end Earbug
